import Mathlib

/-
Verification of the transactional outbox relay (package outbox and the Kafka
producer adapter).  The definitions below are a shallow embedding of the Go
source: the outbox_events table is a list of rows, SQL statements become pure
functions on that list, the Kafka writer becomes a function from
(topic, key, value) to an optional error, and encoding/json is modelled by an
executable parser/serializer for the JSON fragment the claims exercise
(objects, arrays, strings without escapes, integer numbers, booleans, null;
Go map values marshal with keys in sorted order).
-/

namespace Outbox

/-- JSON document values as decoded by encoding/json into Go map values.
Object fields are kept sorted by key with duplicate keys collapsed (last one
wins), mirroring the composition of a Go map with encoding/json's sorted-key
marshalling. -/
inductive Json where
  | null : Json
  | bool (b : Bool) : Json
  | num (n : Int) : Json
  | str (s : String) : Json
  | arr (elems : List Json) : Json
  | obj (fields : List (String × Json)) : Json

/-- JSON whitespace characters. -/
def isWs (c : Char) : Bool :=
  c = ' ' || c = '\t' || c = '\n' || c = '\r'

def skipWs : List Char → List Char
  | [] => []
  | c :: rest => if isWs c then skipWs rest else c :: rest

/-- Body of a JSON string after the opening quote.  The fragment rejects
escape sequences. -/
def parseStrChars : List Char → Option (List Char × List Char)
  | [] => none
  | c :: rest =>
    if c = '"' then some ([], rest)
    else if c = '\\' then none
    else match parseStrChars rest with
      | some (s, r) => some (c :: s, r)
      | none => none

def parseDigitsAux : List Char → (List Char × List Char)
  | [] => ([], [])
  | c :: rest =>
    if c.isDigit then
      match parseDigitsAux rest with
      | (ds, r) => (c :: ds, r)
    else ([], c :: rest)

def digitsToNat (ds : List Char) : Nat :=
  ds.foldl (fun acc c => acc * 10 + (c.toNat - '0'.toNat)) 0

/-- JSON integer literal: optional minus, digits, no leading zeros. -/
def parseNum (s : List Char) : Option (Int × List Char) :=
  let p := match s with
    | c :: rest => if c = '-' then (true, rest) else (false, s)
    | [] => (false, s)
  match parseDigitsAux p.2 with
  | ([], _) => none
  | (ds, r) =>
    if ds.length > 1 && ds.headD '0' = '0' then none
    else
      let n : Int := Int.ofNat (digitsToNat ds)
      some (if p.1 then -n else n, r)

/-- Consume an expected literal suffix. -/
def dropLit : List Char → List Char → Option (List Char)
  | [], s => some s
  | _ :: _, [] => none
  | c :: cs, d :: ds => if c = d then dropLit cs ds else none

/-- Byte-order comparison of strings, as Go sorts map keys when marshalling. -/
def charsLt : List Char → List Char → Bool
  | [], [] => false
  | [], _ :: _ => true
  | _ :: _, [] => false
  | a :: as, b :: bs =>
    if a.toNat < b.toNat then true
    else if b.toNat < a.toNat then false
    else charsLt as bs

def strLt (a b : String) : Bool := charsLt a.data b.data

/-- Insert a field into a key-sorted association list, replacing an existing
binding for the same key (Go map semantics: the last duplicate key wins). -/
def insertField : List (String × Json) → String × Json → List (String × Json)
  | [], kv => [kv]
  | (k, v) :: rest, kv =>
    if strLt kv.1 k then kv :: (k, v) :: rest
    else if kv.1 = k then kv :: rest
    else (k, v) :: insertField rest kv

def buildObj (fs : List (String × Json)) : List (String × Json) :=
  fs.foldl insertField []

mutual

/-- Recursive-descent JSON value reader with explicit fuel. -/
def parseVal : Nat → List Char → Option (Json × List Char)
  | 0, _ => none
  | fuel + 1, s =>
    match skipWs s with
    | [] => none
    | c :: rest =>
      if c = 'n' then (dropLit ['u', 'l', 'l'] rest).map (fun r => (Json.null, r))
      else if c = 't' then (dropLit ['r', 'u', 'e'] rest).map (fun r => (Json.bool true, r))
      else if c = 'f' then (dropLit ['a', 'l', 's', 'e'] rest).map (fun r => (Json.bool false, r))
      else if c = '"' then (parseStrChars rest).map (fun p => (Json.str (String.mk p.1), p.2))
      else if c = '[' then
        match skipWs rest with
        | ']' :: r2 => some (Json.arr [], r2)
        | r1 => (parseElems fuel r1).map (fun p => (Json.arr p.1, p.2))
      else if c = '\x7b' then
        match skipWs rest with
        | '\x7d' :: r2 => some (Json.obj [], r2)
        | r1 => (parseFields fuel r1).map (fun p => (Json.obj (buildObj p.1), p.2))
      else (parseNum (c :: rest)).map (fun p => (Json.num p.1, p.2))

def parseElems : Nat → List Char → Option (List Json × List Char)
  | 0, _ => none
  | fuel + 1, s =>
    match parseVal fuel s with
    | none => none
    | some (v, s1) =>
      match skipWs s1 with
      | ',' :: s2 =>
        match parseElems fuel s2 with
        | none => none
        | some (vs, s3) => some (v :: vs, s3)
      | ']' :: s2 => some ([v], s2)
      | _ => none

def parseFields : Nat → List Char → Option (List (String × Json) × List Char)
  | 0, _ => none
  | fuel + 1, s =>
    match skipWs s with
    | '"' :: r1 =>
      match parseStrChars r1 with
      | none => none
      | some (kcs, r2) =>
        match skipWs r2 with
        | ':' :: r3 =>
          match parseVal fuel r3 with
          | none => none
          | some (v, r4) =>
            match skipWs r4 with
            | ',' :: r5 =>
              match parseFields fuel r5 with
              | none => none
              | some (fs, r6) => some ((String.mk kcs, v) :: fs, r6)
            | '\x7d' :: r5 => some ([(String.mk kcs, v)], r5)
            | _ => none
        | _ => none
    | _ => none

end

/-- json.Unmarshal of stored payload bytes into a Go map: the document must be
a JSON object and the input must be fully consumed apart from whitespace. -/
def unmarshalPayloadObj (s : String) : Option (List (String × Json)) :=
  match parseVal (2 * s.length + 4) s.toList with
  | some (Json.obj fs, rest) => if skipWs rest = [] then some fs else none
  | _ => none

mutual

/-- json.Marshal on decoded values: compact output, fields in stored (sorted)
order, matching Go's marshalling of map values. -/
def jsonMarshal : Json → String
  | Json.null => "null"
  | Json.bool true => "true"
  | Json.bool false => "false"
  | Json.num n => toString n
  | Json.str s => "\"" ++ s ++ "\""
  | Json.arr elems => "[" ++ marshalElems elems ++ "]"
  | Json.obj fields => "\x7b" ++ marshalFields fields ++ "\x7d"

def marshalElems : List Json → String
  | [] => ""
  | [v] => jsonMarshal v
  | v :: w :: rest => jsonMarshal v ++ "," ++ marshalElems (w :: rest)

def marshalFields : List (String × Json) → String
  | [] => ""
  | [(k, v)] => "\"" ++ k ++ "\":" ++ jsonMarshal v
  | (k, v) :: f :: rest => "\"" ++ k ++ "\":" ++ jsonMarshal v ++ "," ++ marshalFields (f :: rest)

end

/-- A Go interface value supplied as an outbox payload, including values that
encoding/json cannot marshal (functions, channels, complex numbers, infinite
floats), represented by the unsupported constructor. -/
inductive GoVal where
  | null : GoVal
  | bool (b : Bool) : GoVal
  | num (n : Int) : GoVal
  | str (s : String) : GoVal
  | arr (elems : List GoVal) : GoVal
  | obj (fields : List (String × GoVal)) : GoVal
  | unsupported (desc : String) : GoVal

mutual

def goToJson : GoVal → Option Json
  | GoVal.null => some Json.null
  | GoVal.bool b => some (Json.bool b)
  | GoVal.num n => some (Json.num n)
  | GoVal.str s => some (Json.str s)
  | GoVal.arr elems => (goElems elems).map Json.arr
  | GoVal.obj fields => (goFields fields).map (fun fs => Json.obj (buildObj fs))
  | GoVal.unsupported _ => none

def goElems : List GoVal → Option (List Json)
  | [] => some []
  | v :: rest =>
    match goToJson v with
    | none => none
    | some j =>
      match goElems rest with
      | none => none
      | some js => some (j :: js)

def goFields : List (String × GoVal) → Option (List (String × Json))
  | [] => some []
  | (k, v) :: rest =>
    match goToJson v with
    | none => none
    | some j =>
      match goFields rest with
      | none => none
      | some js => some ((k, j) :: js)

end

/-- json.Marshal on a payload value: fails exactly on unmarshalable values. -/
def jsonMarshalGo (v : GoVal) : Option String :=
  (goToJson v).map jsonMarshal

/-- Status constants of the outbox package. -/
def statusPending : String := "pending"

def statusPublished : String := "published"

def statusFailed : String := "failed"

/-- One row of the outbox_events table; payload holds the stored JSONB bytes. -/
structure Row where
  id : String
  aggregateId : String
  eventType : String
  topic : String
  payload : String
  status : String
  attempts : Nat
  lastError : Option String
  createdAt : Nat
  publishedAt : Option Nat
deriving DecidableEq

/-- OutboxEvent as held by the publisher after GetPendingEvents decoded the
payload into a map. -/
structure OutboxEvent where
  id : String
  aggregateId : String
  eventType : String
  topic : String
  payload : List (String × Json)
  status : String
  attempts : Nat
  lastError : Option String
  createdAt : Nat
  publishedAt : Option Nat

/-- A message durably accepted by the broker. -/
structure Msg where
  topic : String
  key : String
  value : String
deriving DecidableEq

/-- Error taxonomy of the store operations, matching the fmt.Errorf wrappers
in the repository. -/
inductive StoreErr where
  | encodeErr (msg : String) : StoreErr
  | dbErr (msg : String) : StoreErr
  | notFound (id : String) : StoreErr
deriving DecidableEq

/-- Semantics of UPDATE outbox_events SET ... WHERE id = eventID. -/
def applyUpd (tbl : List Row) (eventID : String) (f : Row → Row) : List Row :=
  tbl.map (fun r => if r.id = eventID then f r else r)

/-- Caller-populated fields of an event handed to SaveEvent. -/
structure EventInput where
  aggregateId : String
  eventType : String
  topic : String
  payload : GoVal

/-- The row INSERTed by SaveEvent: status pending, attempts 0, server-assigned
id and created_at. -/
def mkSavedRow (nextId : String) (now : Nat) (e : EventInput) (payloadJSON : String) : Row :=
  { id := nextId, aggregateId := e.aggregateId, eventType := e.eventType, topic := e.topic,
    payload := payloadJSON, status := statusPending, attempts := 0, lastError := none,
    createdAt := now, publishedAt := none }

/-- Repository.SaveEvent: marshal the payload (encode failure aborts before
touching the transaction), then INSERT one pending row on the caller's
transaction, returning the server-assigned id and created_at.  dbFail injects
a database error for the INSERT. -/
def saveEvent (dbFail : Option String) (tbl : List Row) (nextId : String) (now : Nat)
    (e : EventInput) : List Row × Except StoreErr (String × Nat) :=
  match jsonMarshalGo e.payload with
  | none => (tbl, Except.error (StoreErr.encodeErr "failed to marshal payload"))
  | some payloadJSON =>
    match dbFail with
    | some m => (tbl, Except.error (StoreErr.dbErr ("failed to save outbox event: " ++ m)))
    | none => (tbl ++ [mkSavedRow nextId now e payloadJSON], Except.ok (nextId, now))

/-- Stable insertion keyed on created_at; rows tied on created_at keep their
relative scan order, because the SQL orders by created_at alone. -/
def insertByCreated (r : Row) : List Row → List Row
  | [] => [r]
  | x :: xs => if r.createdAt ≤ x.createdAt then r :: x :: xs else x :: insertByCreated r xs

def sortByCreated : List Row → List Row
  | [] => []
  | x :: xs => insertByCreated x (sortByCreated xs)

/-- The SELECT of GetPendingEvents: WHERE status = 'pending' AND attempts < 5
ORDER BY created_at ASC LIMIT limit. -/
def sqlPendingQuery (tbl : List Row) (limit : Nat) : List Row :=
  (sortByCreated (tbl.filter (fun r => r.status == statusPending && decide (r.attempts < 5)))).take limit

/-- Per-row decoding done in the GetPendingEvents scan loop; a row whose
payload does not unmarshal yields none and is skipped. -/
def decodeRow (r : Row) : Option OutboxEvent :=
  (unmarshalPayloadObj r.payload).map (fun fs =>
    { id := r.id, aggregateId := r.aggregateId, eventType := r.eventType, topic := r.topic,
      payload := fs, status := r.status, attempts := r.attempts, lastError := r.lastError,
      createdAt := r.createdAt, publishedAt := r.publishedAt })

/-- The batch GetPendingEvents returns on query success. -/
def batchOf (tbl : List Row) (limit : Nat) : List OutboxEvent :=
  (sqlPendingQuery tbl limit).filterMap decodeRow

/-- Repository.GetPendingEvents: a query failure returns an error and no
partial batch; otherwise the filtered, ordered, limited rows with undecodable
payloads skipped. -/
def getPendingEvents (dbFail : Option String) (tbl : List Row) (limit : Nat) :
    Except StoreErr (List OutboxEvent) :=
  match dbFail with
  | some m => Except.error (StoreErr.dbErr ("failed to get pending events: " ++ m))
  | none => Except.ok (batchOf tbl limit)

/-- Repository.MarkAsPublished: UPDATE status/published_at WHERE id; zero
affected rows is reported as event-not-found. -/
def markAsPublished (dbFail : Option String) (tbl : List Row) (eventID : String) (now : Nat) :
    List Row × Except StoreErr Unit :=
  match dbFail with
  | some m => (tbl, Except.error (StoreErr.dbErr ("failed to mark event as published: " ++ m)))
  | none =>
    let updated := applyUpd tbl eventID
      (fun r => { r with status := statusPublished, publishedAt := some now })
    if (tbl.filter (fun r => r.id == eventID)).length = 0 then
      (updated, Except.error (StoreErr.notFound eventID))
    else (updated, Except.ok ())

/-- Repository.MarkAsFailed: UPDATE status = failed, attempts = attempts + 1,
last_error WHERE id; the affected-row count is not inspected. -/
def markAsFailed (dbFail : Option String) (tbl : List Row) (eventID : String) (errorMsg : String) :
    List Row × Except StoreErr Unit :=
  match dbFail with
  | some m => (tbl, Except.error (StoreErr.dbErr ("failed to mark event as failed: " ++ m)))
  | none =>
    (applyUpd tbl eventID (fun r =>
      { r with status := statusFailed, attempts := r.attempts + 1, lastError := some errorMsg }),
     Except.ok ())

/-- Repository.IncrementAttempt: UPDATE attempts = attempts + 1, last_error
WHERE id; the affected-row count is not inspected. -/
def incrementAttempt (dbFail : Option String) (tbl : List Row) (eventID : String)
    (errorMsg : String) : List Row × Except StoreErr Unit :=
  match dbFail with
  | some m => (tbl, Except.error (StoreErr.dbErr ("failed to increment attempt: " ++ m)))
  | none =>
    (applyUpd tbl eventID (fun r =>
      { r with attempts := r.attempts + 1, lastError := some errorMsg }),
     Except.ok ())

/-- Broker behavior for one tick: none means WriteMessages succeeded with
acks, some err a failed publish attempt. -/
abbrev PubFn := String → String → String → Option String

/-- Producer.PublishEvent marshals the decoded payload map and sends it as the
message value: the wire bytes are a re-encoding, not the stored bytes. -/
def wireValue (e : OutboxEvent) : String := jsonMarshal (Json.obj e.payload)

/-- The per-event body of Publisher.publishPendingEvents: publish, then on
failure either MarkAsFailed (snapshot attempts at least 4) or
IncrementAttempt, on success MarkAsPublished.  Returns the updated table and
the messages durably accepted by the broker. -/
def processEvent (pub : PubFn) (tbl : List Row) (now : Nat) (e : OutboxEvent) :
    List Row × List Msg :=
  match pub e.topic e.aggregateId (wireValue e) with
  | some errMsg =>
    if e.attempts ≥ 4 then ((markAsFailed none tbl e.id errMsg).1, [])
    else ((incrementAttempt none tbl e.id errMsg).1, [])
  | none => ((markAsPublished none tbl e.id now).1, [⟨e.topic, e.aggregateId, wireValue e⟩])

/-- The batch limit hard-coded in Publisher.publishPendingEvents. -/
def batchLimit : Nat := 100

/-- Loop body of Publisher.publishPendingEvents over the fetched batch. -/
def foldStep (pub : PubFn) (now : Nat) (acc : List Row × List Msg) (e : OutboxEvent) :
    List Row × List Msg :=
  let p := processEvent pub acc.1 now e
  (p.1, acc.2 ++ p.2)

/-- Publisher.publishPendingEvents: fetch up to 100 pending events and process
each one in batch order against the evolving table. -/
def publishPendingEvents (pub : PubFn) (tbl : List Row) (now : Nat) : List Row × List Msg :=
  match getPendingEvents none tbl batchLimit with
  | Except.error _ => (tbl, [])
  | Except.ok events => events.foldl (foldStep pub now) (tbl, [])

/-- One relay tick as a relation between table states, for an arbitrary broker
outcome and clock. -/
def drainStep (tbl tbl' : List Row) : Prop :=
  ∃ pub now, tbl' = (publishPendingEvents pub tbl now).1

/-- The row update publishPendingEvents issues for one event, as a function of
the broker outcome: on failure increment attempts and set last_error, also
setting status failed when the snapshot attempts is at least 4; on success set
status published and published_at. -/
def rowUpdate (pub : PubFn) (now : Nat) (e : OutboxEvent) : Row → Row :=
  match pub e.topic e.aggregateId (wireValue e) with
  | some errMsg =>
    if e.attempts ≥ 4 then
      fun r => { r with status := statusFailed, attempts := r.attempts + 1, lastError := some errMsg }
    else
      fun r => { r with attempts := r.attempts + 1, lastError := some errMsg }
  | none => fun r => { r with status := statusPublished, publishedAt := some now }

/-- Net effect of a batch on a single row: each event touches exactly the rows
carrying its id. -/
def applyEvents (pub : PubFn) (now : Nat) (events : List OutboxEvent) (r : Row) : Row :=
  events.foldl (fun r e => if r.id = e.id then rowUpdate pub now e r else r) r

/-- Status and retry counter of a row. -/
def rowState (r : Row) : String × Nat := (r.status, r.attempts)

/-- The transitions a single outbox row can undergo in one relay tick: the
fetch query requires status pending and attempts < 5, and on publish failure
the relay marks the row failed exactly when the snapshot attempts is at least
4, incrementing attempts either way. -/
inductive RelayRowStep : String × Nat → String × Nat → Prop where
  | publishOk (a : Nat) (h : a < 5) : RelayRowStep (statusPending, a) (statusPublished, a)
  | publishRetry (a : Nat) (h : a < 4) : RelayRowStep (statusPending, a) (statusPending, a + 1)
  | publishExhausted : RelayRowStep (statusPending, 4) (statusFailed, 5)

theorem insertByCreated_perm (r : Row) (l : List Row) :
    (insertByCreated r l).Perm (r :: l) := by
  induction l with
  | nil => simp [insertByCreated]
  | cons x xs ih =>
    simp only [insertByCreated]
    by_cases h : r.createdAt ≤ x.createdAt
    · simp [h]
    · simp only [h, if_false]
      exact (ih.cons x).trans (List.Perm.swap r x xs)

theorem sortByCreated_perm (l : List Row) : (sortByCreated l).Perm l := by
  induction l with
  | nil => simp [sortByCreated]
  | cons x xs ih =>
    exact (insertByCreated_perm x (sortByCreated xs)).trans (ih.cons x)

theorem insertByCreated_pairwise (r : Row) {l : List Row}
    (h : l.Pairwise (fun a b => a.createdAt ≤ b.createdAt)) :
    (insertByCreated r l).Pairwise (fun a b => a.createdAt ≤ b.createdAt) := by
  induction l with
  | nil => simp [insertByCreated]
  | cons x xs ih =>
    rcases List.pairwise_cons.mp h with ⟨hx, hxs⟩
    simp only [insertByCreated]
    by_cases hle : r.createdAt ≤ x.createdAt
    · simp only [hle, if_true]
      refine List.Pairwise.cons ?_ h
      intro b hb
      rcases List.mem_cons.mp hb with hb | hb
      · exact hb ▸ hle
      · exact le_trans hle (hx b hb)
    · simp only [hle, if_false]
      refine List.Pairwise.cons ?_ (ih hxs)
      intro b hb
      rcases List.mem_cons.mp ((insertByCreated_perm r xs).mem_iff.mp hb) with hb | hb
      · exact hb ▸ le_of_not_le hle
      · exact hx b hb

theorem sortByCreated_pairwise (l : List Row) :
    (sortByCreated l).Pairwise (fun a b => a.createdAt ≤ b.createdAt) := by
  induction l with
  | nil => simp [sortByCreated]
  | cons x xs ih => exact insertByCreated_pairwise x ih

theorem mem_sqlPendingQuery {tbl : List Row} {limit : Nat} {r : Row}
    (h : r ∈ sqlPendingQuery tbl limit) :
    r ∈ tbl ∧ r.status = statusPending ∧ r.attempts < 5 := by
  unfold sqlPendingQuery at h
  have h1 := List.take_subset _ _ h
  have h2 := (sortByCreated_perm _).mem_iff.mp h1
  have h3 := List.mem_filter.mp h2
  have h4 := h3.2
  simp only [Bool.and_eq_true, beq_iff_eq, decide_eq_true_eq] at h4
  exact ⟨h3.1, h4.1, h4.2⟩

theorem length_sqlPendingQuery_le (tbl : List Row) (limit : Nat) :
    (sqlPendingQuery tbl limit).length ≤ limit := by
  unfold sqlPendingQuery
  exact List.length_take_le _ _

theorem sqlPendingQuery_pairwise (tbl : List Row) (limit : Nat) :
    (sqlPendingQuery tbl limit).Pairwise (fun a b => a.createdAt ≤ b.createdAt) :=
  (sortByCreated_pairwise _).sublist (List.take_sublist _ _)

theorem decodeRow_some {r : Row} {e : OutboxEvent} (h : decodeRow r = some e) :
    unmarshalPayloadObj r.payload = some e.payload ∧ e.id = r.id ∧
    e.aggregateId = r.aggregateId ∧ e.topic = r.topic ∧ e.status = r.status ∧
    e.attempts = r.attempts ∧ e.createdAt = r.createdAt := by
  unfold decodeRow at h
  rcases Option.map_eq_some'.mp h with ⟨fs, hu, he⟩
  subst he
  exact ⟨hu, rfl, rfl, rfl, rfl, rfl, rfl⟩

theorem mem_batchOf {tbl : List Row} {limit : Nat} {e : OutboxEvent}
    (h : e ∈ batchOf tbl limit) :
    ∃ r, r ∈ tbl ∧ r.status = statusPending ∧ r.attempts < 5 ∧ decodeRow r = some e := by
  unfold batchOf at h
  rcases List.mem_filterMap.mp h with ⟨r, hr, hd⟩
  rcases mem_sqlPendingQuery hr with ⟨h1, h2, h3⟩
  exact ⟨r, h1, h2, h3, hd⟩

theorem length_batchOf_le (tbl : List Row) (limit : Nat) :
    (batchOf tbl limit).length ≤ limit :=
  le_trans (List.length_filterMap_le _ _) (length_sqlPendingQuery_le tbl limit)

theorem batchOf_pairwise (tbl : List Row) (limit : Nat) :
    (batchOf tbl limit).Pairwise (fun a b => a.createdAt ≤ b.createdAt) := by
  unfold batchOf
  rw [List.pairwise_filterMap]
  refine (sqlPendingQuery_pairwise tbl limit).imp ?_
  intro a b hab x hx y hy
  have hx' := decodeRow_some hx
  have hy' := decodeRow_some hy
  rw [hx'.2.2.2.2.2.2, hy'.2.2.2.2.2.2]
  exact hab

theorem filterMap_map_sublist {α β γ : Type} (f : α → Option β) (g : β → γ) (h : α → γ)
    (hfg : ∀ a b, f a = some b → g b = h a) :
    ∀ l : List α, ((l.filterMap f).map g).Sublist (l.map h) := by
  intro l
  induction l with
  | nil => simp
  | cons x xs ih =>
    cases hfx : f x with
    | none =>
      simp only [List.filterMap_cons, hfx, List.map_cons]
      exact ih.cons _
    | some b =>
      simp only [List.filterMap_cons, hfx, List.map_cons, hfg x b hfx]
      exact ih.cons₂ _

theorem batchOf_ids_nodup {tbl : List Row} (hnd : (tbl.map Row.id).Nodup) (limit : Nat) :
    ((batchOf tbl limit).map OutboxEvent.id).Nodup := by
  have hf : (((tbl.filter
      (fun r => r.status == statusPending && decide (r.attempts < 5))).map Row.id)).Nodup :=
    hnd.sublist ((List.filter_sublist _).map _)
  have hs := (((sortByCreated_perm
    (tbl.filter (fun r => r.status == statusPending && decide (r.attempts < 5)))).map
      Row.id).nodup_iff).mpr hf
  have ht : ((sqlPendingQuery tbl limit).map Row.id).Nodup := by
    unfold sqlPendingQuery
    exact hs.sublist ((List.take_sublist _ _).map _)
  exact ht.sublist (filterMap_map_sublist decodeRow OutboxEvent.id Row.id
    (fun a b hab => (decodeRow_some hab).2.1) (sqlPendingQuery tbl limit))

theorem processEvent_fst (pub : PubFn) (tbl : List Row) (now : Nat) (e : OutboxEvent) :
    (processEvent pub tbl now e).1 = applyUpd tbl e.id (rowUpdate pub now e) := by
  unfold processEvent rowUpdate markAsFailed incrementAttempt markAsPublished
  cases pub e.topic e.aggregateId (wireValue e) with
  | some m => by_cases h : e.attempts ≥ 4 <;> simp [h]
  | none =>
    simp only []
    split <;> rfl

theorem processEvent_snd_mem {pub : PubFn} {tbl : List Row} {now : Nat} {e : OutboxEvent}
    {msg : Msg} (h : msg ∈ (processEvent pub tbl now e).2) :
    pub e.topic e.aggregateId (wireValue e) = none ∧
    msg = ⟨e.topic, e.aggregateId, wireValue e⟩ := by
  unfold processEvent at h
  cases hp : pub e.topic e.aggregateId (wireValue e) with
  | some m =>
    rw [hp] at h
    by_cases h4 : e.attempts ≥ 4 <;> simp [h4] at h
  | none =>
    rw [hp] at h
    simp at h
    exact ⟨rfl, h⟩

theorem foldStep_fst (pub : PubFn) (now : Nat) (events : List OutboxEvent) :
    ∀ (tbl : List Row) (msgs : List Msg),
      (events.foldl (foldStep pub now) (tbl, msgs)).1 = tbl.map (applyEvents pub now events) := by
  induction events with
  | nil =>
    intro tbl msgs
    exact (List.map_id' tbl).symm
  | cons e rest ih =>
    intro tbl msgs
    simp only [List.foldl_cons]
    have hstep : foldStep pub now (tbl, msgs) e =
        (applyUpd tbl e.id (rowUpdate pub now e), msgs ++ (processEvent pub tbl now e).2) := by
      unfold foldStep
      rw [← processEvent_fst]
    rw [hstep, ih]
    unfold applyUpd
    rw [List.map_map]
    rfl

theorem foldStep_snd_mem (pub : PubFn) (now : Nat) (events : List OutboxEvent) :
    ∀ (tbl : List Row) (msgs : List Msg) (msg : Msg),
      msg ∈ (events.foldl (foldStep pub now) (tbl, msgs)).2 →
      msg ∈ msgs ∨ ∃ e ∈ events, pub e.topic e.aggregateId (wireValue e) = none ∧
        msg = ⟨e.topic, e.aggregateId, wireValue e⟩ := by
  induction events with
  | nil =>
    intro tbl msgs msg h
    exact Or.inl h
  | cons e rest ih =>
    intro tbl msgs msg h
    simp only [List.foldl_cons] at h
    rcases ih _ _ _ h with hin | ⟨e', he', hp, hm⟩
    · rcases List.mem_append.mp hin with h1 | h2
      · exact Or.inl h1
      · rcases processEvent_snd_mem h2 with ⟨hp, hm⟩
        exact Or.inr ⟨e, List.mem_cons_self e rest, hp, hm⟩
    · exact Or.inr ⟨e', List.mem_cons_of_mem e he', hp, hm⟩

theorem publishPendingEvents_fst (pub : PubFn) (tbl : List Row) (now : Nat) :
    (publishPendingEvents pub tbl now).1 = tbl.map (applyEvents pub now (batchOf tbl batchLimit)) := by
  unfold publishPendingEvents getPendingEvents
  exact foldStep_fst pub now (batchOf tbl batchLimit) tbl []

theorem publishPendingEvents_snd_mem {pub : PubFn} {tbl : List Row} {now : Nat} {msg : Msg}
    (h : msg ∈ (publishPendingEvents pub tbl now).2) :
    ∃ e ∈ batchOf tbl batchLimit, pub e.topic e.aggregateId (wireValue e) = none ∧
      msg = ⟨e.topic, e.aggregateId, wireValue e⟩ := by
  unfold publishPendingEvents getPendingEvents at h
  rcases foldStep_snd_mem pub now (batchOf tbl batchLimit) tbl [] msg h with hin | hex
  · exact absurd hin (List.not_mem_nil msg)
  · exact hex

theorem rowUpdate_id (pub : PubFn) (now : Nat) (e : OutboxEvent) (r : Row) :
    (rowUpdate pub now e r).id = r.id := by
  unfold rowUpdate
  cases pub e.topic e.aggregateId (wireValue e) with
  | some m => by_cases h : e.attempts ≥ 4 <;> simp [h]
  | none => simp

theorem applyEvents_id (pub : PubFn) (now : Nat) (evs : List OutboxEvent) :
    ∀ r : Row, (applyEvents pub now evs r).id = r.id := by
  induction evs with
  | nil => intro r; rfl
  | cons e rest ih =>
    intro r
    show (applyEvents pub now rest (if r.id = e.id then rowUpdate pub now e r else r)).id = r.id
    rw [ih]
    by_cases h : r.id = e.id <;> simp [h, rowUpdate_id]

theorem applyEvents_of_not_mem (pub : PubFn) (now : Nat) {r : Row} :
    ∀ {evs : List OutboxEvent}, (∀ e ∈ evs, r.id ≠ e.id) → applyEvents pub now evs r = r := by
  intro evs
  induction evs with
  | nil => intro _; rfl
  | cons e rest ih =>
    intro h
    show applyEvents pub now rest (if r.id = e.id then rowUpdate pub now e r else r) = r
    rw [if_neg (h e (List.mem_cons_self e rest))]
    exact ih (fun e' he' => h e' (List.mem_cons_of_mem e he'))

theorem applyEvents_of_single (pub : PubFn) (now : Nat) {r : Row} {e : OutboxEvent} :
    ∀ {evs : List OutboxEvent}, (evs.map OutboxEvent.id).Nodup → e ∈ evs → r.id = e.id →
      applyEvents pub now evs r = rowUpdate pub now e r := by
  intro evs
  induction evs with
  | nil => intro _ hmem; exact absurd hmem (List.not_mem_nil e)
  | cons e' rest ih =>
    intro hnd hmem hid
    rcases List.pairwise_cons.mp hnd with ⟨hhead, hrest⟩
    rcases List.mem_cons.mp hmem with heq | hmem'
    · subst heq
      show applyEvents pub now rest (if r.id = e.id then rowUpdate pub now e r else r) =
        rowUpdate pub now e r
      rw [if_pos hid]
      refine applyEvents_of_not_mem pub now ?_
      intro e'' he'' hcontra
      rw [rowUpdate_id, hid] at hcontra
      exact hhead e''.id (List.mem_map_of_mem OutboxEvent.id he'') hcontra
    · have hne : r.id ≠ e'.id := by
        intro hcontra
        have : e.id ∈ rest.map OutboxEvent.id := List.mem_map_of_mem OutboxEvent.id hmem'
        exact hhead e.id this (by rw [← hcontra, hid])
      show applyEvents pub now rest (if r.id = e'.id then rowUpdate pub now e' r else r) =
        rowUpdate pub now e r
      rw [if_neg hne]
      exact ih hrest hmem' hid

theorem publishPendingEvents_ids (pub : PubFn) (tbl : List Row) (now : Nat) :
    ((publishPendingEvents pub tbl now).1).map Row.id = tbl.map Row.id := by
  rw [publishPendingEvents_fst, List.map_map]
  generalize batchOf tbl batchLimit = evs
  induction tbl with
  | nil => rfl
  | cons x xs ih =>
    simp only [List.map_cons, ih]
    rw [Function.comp_apply, applyEvents_id]

/-- Each row in the table after one tick is either the identical row of the
previous table or the image of a fetched pending row under exactly one
RelayRowStep transition; ids are preserved.  Requires the primary-key
invariant that row ids are unique. -/
theorem drain_row_evol {pub : PubFn} {tbl : List Row} {now : Nat} {r' : Row}
    (hnd : (tbl.map Row.id).Nodup) (h : r' ∈ (publishPendingEvents pub tbl now).1) :
    ∃ r, r ∈ tbl ∧ r'.id = r.id ∧
      (r' = r ∨ RelayRowStep (rowState r) (rowState r')) := by
  rw [publishPendingEvents_fst] at h
  rcases List.mem_map.mp h with ⟨r, hr, he⟩
  by_cases hmem : ∃ e ∈ batchOf tbl batchLimit, r.id = e.id
  · rcases hmem with ⟨e, hebatch, hid⟩
    have hsingle := applyEvents_of_single pub now (batchOf_ids_nodup hnd batchLimit) hebatch hid
    rcases mem_batchOf hebatch with ⟨row, hrow, hpend, hatt, hdec⟩
    have hfields := decodeRow_some hdec
    have hrowr : row = r :=
      List.inj_on_of_nodup_map hnd hrow hr (by rw [← hfields.2.1, ← hid])
    subst hrowr
    refine ⟨row, hrow, ?_, Or.inr ?_⟩
    · rw [← he, applyEvents_id]
    · rw [← he, hsingle]
      unfold rowUpdate rowState
      cases hp : pub e.topic e.aggregateId (wireValue e) with
      | some m =>
        by_cases h4 : e.attempts ≥ 4
        · have ha : row.attempts = 4 := by
            have := hfields.2.2.2.2.2.1
            omega
          simp only [h4, if_true]
          rw [hpend, ha]
          exact RelayRowStep.publishExhausted
        · simp only [h4, if_false]
          rw [hpend]
          refine RelayRowStep.publishRetry row.attempts ?_
          have := hfields.2.2.2.2.2.1
          omega
      | none =>
        rw [hpend]
        exact RelayRowStep.publishOk row.attempts hatt
  · push_neg at hmem
    refine ⟨r, hr, ?_, Or.inl ?_⟩
    · rw [← he, applyEvents_id]
    · rw [← he]
      exact applyEvents_of_not_mem pub now (fun e hein => hmem e hein)

/-- A row that no batch event targets passes through one tick unchanged. -/
theorem drain_row_untouched {pub : PubFn} {tbl : List Row} {now : Nat} {r : Row}
    (hr : r ∈ tbl) (hno : ∀ e ∈ batchOf tbl batchLimit, r.id ≠ e.id) :
    r ∈ (publishPendingEvents pub tbl now).1 := by
  rw [publishPendingEvents_fst]
  exact List.mem_map.mpr ⟨r, hr, applyEvents_of_not_mem pub now hno⟩

/-- A broker that accepts every message. -/
def pubAllOk : PubFn := fun _ _ _ => none

/-- A broker that rejects every message. -/
def pubAllFail : PubFn := fun _ _ _ => some "kafka: connection refused"

/-- A freshly enqueued decodable row. -/
def pendingRow : Row :=
  { id := "e1", aggregateId := "w-1", eventType := "wallet.created", topic := "wallet.created",
    payload := "\x7b\"x\": 1\x7d", status := statusPending, attempts := 0, lastError := none,
    createdAt := 0, publishedAt := none }

/-- A decoded event snapshot with attempts 0. -/
def ev0 : OutboxEvent :=
  { id := "e1", aggregateId := "w-1", eventType := "wallet.created", topic := "wallet.created",
    payload := [], status := statusPending, attempts := 0, lastError := none,
    createdAt := 0, publishedAt := none }

/-- C2: for every event in a fetched batch whose publish attempt fails, the
relay records a non-terminal failure (attempts incremented by one, last_error
set, status untouched) exactly when the snapshot attempts + 1 < 5, and
otherwise records a terminal failure that additionally sets status = failed;
this is the attempts >= 4 branch of publishPendingEvents combined with
IncrementAttempt and MarkAsFailed. -/
theorem relay_failure_branch_spec (pub : PubFn) (tbl : List Row) (now : Nat) (e : OutboxEvent)
    (errMsg : String) (h : pub e.topic e.aggregateId (wireValue e) = some errMsg) :
    (processEvent pub tbl now e).1 =
      (if e.attempts + 1 < 5 then
        applyUpd tbl e.id (fun r => { r with attempts := r.attempts + 1, lastError := some errMsg })
      else
        applyUpd tbl e.id (fun r => { r with status := statusFailed, attempts := r.attempts + 1, lastError := some errMsg })) := by
  unfold processEvent markAsFailed incrementAttempt
  rw [h]
  dsimp only
  by_cases h4 : e.attempts ≥ 4
  · rw [if_pos h4, if_neg (by omega)]
  · rw [if_neg h4, if_pos (by omega)]

/-- C2 witness: a concrete failing publish at attempts 0 takes the
non-terminal branch. -/
theorem relay_failure_branch_spec_witness :
    (processEvent pubAllFail ([] : List Row) 0 ev0).1 =
      (if ev0.attempts + 1 < 5 then
        applyUpd [] ev0.id (fun r =>
          { r with attempts := r.attempts + 1, lastError := some "kafka: connection refused" })
      else
        applyUpd [] ev0.id (fun r => { r with status := statusFailed, attempts := r.attempts + 1, lastError := some "kafka: connection refused" })) :=
  relay_failure_branch_spec pubAllFail [] 0 ev0 "kafka: connection refused" rfl

/-- C5 (amended): FetchPending returns at most limit rows, each pending with
attempts < 5, ordered by created_at ascending; rows tied on created_at appear
in scan order, and a database failure yields an error with no partial batch.
(The claimed id tie-break is refuted separately.) -/
theorem fetch_pending_contract (tbl : List Row) (limit : Nat) (m : String) :
    getPendingEvents none tbl limit = Except.ok (batchOf tbl limit) ∧
    (batchOf tbl limit).length ≤ limit ∧
    (∀ e ∈ batchOf tbl limit, e.status = statusPending ∧ e.attempts < 5) ∧
    (batchOf tbl limit).Pairwise (fun a b => a.createdAt ≤ b.createdAt) ∧
    getPendingEvents (some m) tbl limit =
      Except.error (StoreErr.dbErr ("failed to get pending events: " ++ m)) := by
  refine ⟨rfl, length_batchOf_le tbl limit, ?_, batchOf_pairwise tbl limit, rfl⟩
  intro e he
  rcases mem_batchOf he with ⟨r, _, hst, hat, hdec⟩
  have hf := decodeRow_some hdec
  exact ⟨by rw [hf.2.2.2.2.1, hst], by rw [hf.2.2.2.2.2.1]; exact hat⟩

/-- C5 witness: the contract instantiated at a concrete table and limit. -/
theorem fetch_pending_contract_witness : (batchOf [pendingRow] 10).length ≤ 10 :=
  (fetch_pending_contract [pendingRow] 10 "db down").2.1

/-- Two decodable pending rows tied on created_at, scan order b before a. -/
def tieRowB : Row :=
  { id := "b", aggregateId := "w", eventType := "t", topic := "top", payload := "\x7b\x7d",
    status := statusPending, attempts := 0, lastError := none, createdAt := 7,
    publishedAt := none }

def tieRowA : Row :=
  { id := "a", aggregateId := "w", eventType := "t", topic := "top", payload := "\x7b\x7d",
    status := statusPending, attempts := 0, lastError := none, createdAt := 7,
    publishedAt := none }

def tieEvB : OutboxEvent :=
  { id := "b", aggregateId := "w", eventType := "t", topic := "top", payload := [],
    status := statusPending, attempts := 0, lastError := none, createdAt := 7,
    publishedAt := none }

def tieEvA : OutboxEvent :=
  { id := "a", aggregateId := "w", eventType := "t", topic := "top", payload := [],
    status := statusPending, attempts := 0, lastError := none, createdAt := 7,
    publishedAt := none }

/-- C5 counterexample: the query orders by created_at alone, so ties are NOT
broken by id: a table scanned with id b before id a at equal created_at is
returned in that order, violating the claimed (created_at, id) ordering. -/
theorem fetch_pending_no_id_tiebreak :
    batchOf [tieRowB, tieRowA] 2 = [tieEvB, tieEvA] ∧
    tieEvB.createdAt = tieEvA.createdAt ∧ strLt tieEvA.id tieEvB.id = true ∧
    tieEvB.id ≠ tieEvA.id := by
  refine ⟨rfl, rfl, rfl, ?_⟩
  decide

/-- A pending row whose stored payload is not valid JSON. -/
def badRow : Row :=
  { id := "bad", aggregateId := "w", eventType := "t", topic := "top", payload := "oops",
    status := statusPending, attempts := 0, lastError := none, createdAt := 0,
    publishedAt := none }

/-- A pending decodable row enqueued after badRow. -/
def goodRow : Row :=
  { id := "good", aggregateId := "w", eventType := "t", topic := "top", payload := "\x7b\x7d",
    status := statusPending, attempts := 0, lastError := none, createdAt := 1,
    publishedAt := none }

def goodEv : OutboxEvent :=
  { id := "good", aggregateId := "w", eventType := "t", topic := "top", payload := [],
    status := statusPending, attempts := 0, lastError := none, createdAt := 1,
    publishedAt := none }

/-- C6: a pending row whose payload fails to decode is omitted from every
fetched batch, no relay tick mutates it (it survives each tick as the very
same row, in particular it stays pending and is never marked failed), and
every decodable row selected by the query is still returned. -/
theorem undecodable_rows_quarantined (tbl : List Row) (r : Row)
    (hnd : (tbl.map Row.id).Nodup) (hr : r ∈ tbl)
    (hbad : unmarshalPayloadObj r.payload = none) :
    (∀ limit, ∀ e ∈ batchOf tbl limit, e.id ≠ r.id) ∧
    (∀ pub now, r ∈ (publishPendingEvents pub tbl now).1) ∧
    (∀ limit r', r' ∈ sqlPendingQuery tbl limit → ∀ ev, decodeRow r' = some ev →
      ev ∈ batchOf tbl limit) := by
  have hids : ∀ limit, ∀ e ∈ batchOf tbl limit, e.id ≠ r.id := by
    intro limit e he hcontra
    rcases mem_batchOf he with ⟨row, hrow, _, _, hdec⟩
    have hf := decodeRow_some hdec
    have hrowr : row = r :=
      List.inj_on_of_nodup_map hnd hrow hr (by rw [← hf.2.1, hcontra])
    rw [hrowr] at hdec
    unfold decodeRow at hdec
    rw [hbad] at hdec
    exact Option.noConfusion hdec
  refine ⟨hids, ?_, ?_⟩
  · intro pub now
    exact drain_row_untouched hr (fun e he hcontra => hids batchLimit e he hcontra.symm)
  · intro limit r' hr' ev hdec
    exact List.mem_filterMap.mpr ⟨r', hr', hdec⟩

/-- C6 witness: with an undecodable older row and a decodable newer row, the
decodable event is still returned and the bad row survives a tick unchanged. -/
theorem undecodable_rows_quarantined_witness :
    goodEv ∈ batchOf [badRow, goodRow] 2 ∧
    badRow ∈ (publishPendingEvents pubAllOk [badRow, goodRow] 0).1 := by
  have h := undecodable_rows_quarantined [badRow, goodRow] badRow (by decide)
    (List.mem_cons_self badRow [goodRow]) rfl
  exact ⟨h.2.2 2 goodRow (by decide) goodEv rfl, h.2.1 pubAllOk 0⟩

/-- C7: SaveEvent returns an encode error exactly when the payload cannot be
marshalled, and then leaves the caller's transaction untouched; otherwise,
when the INSERT succeeds, exactly one pending row with attempts 0 is appended
and the server-assigned id and created_at are returned. -/
theorem save_event_contract (dbFail : Option String) (tbl : List Row) (nextId : String)
    (now : Nat) (e : EventInput) :
    ((∃ m, (saveEvent dbFail tbl nextId now e).2 = Except.error (StoreErr.encodeErr m)) ↔
      jsonMarshalGo e.payload = none) ∧
    (jsonMarshalGo e.payload = none → (saveEvent dbFail tbl nextId now e).1 = tbl) ∧
    (∀ pj, jsonMarshalGo e.payload = some pj → dbFail = none →
      (saveEvent dbFail tbl nextId now e).1 = tbl ++ [mkSavedRow nextId now e pj] ∧
      (saveEvent dbFail tbl nextId now e).2 = Except.ok (nextId, now) ∧
      (mkSavedRow nextId now e pj).status = statusPending ∧
      (mkSavedRow nextId now e pj).attempts = 0 ∧
      (mkSavedRow nextId now e pj).id = nextId ∧
      (mkSavedRow nextId now e pj).createdAt = now) := by
  unfold saveEvent
  cases hm : jsonMarshalGo e.payload with
  | none =>
    dsimp only
    refine ⟨⟨fun _ => rfl, fun _ => ⟨"failed to marshal payload", rfl⟩⟩, fun _ => rfl, ?_⟩
    intro pj hpj
    exact Option.noConfusion hpj
  | some pj0 =>
    cases dbFail with
    | some m =>
      dsimp only
      refine ⟨⟨?_, fun h' => Option.noConfusion h'⟩, fun h' => Option.noConfusion h', ?_⟩
      · rintro ⟨m', hm'⟩
        exact StoreErr.noConfusion (Except.error.inj hm')
      · intro pj hpj hdb
        exact Option.noConfusion hdb
    | none =>
      dsimp only
      refine ⟨⟨?_, fun h' => Option.noConfusion h'⟩, fun h' => Option.noConfusion h', ?_⟩
      · rintro ⟨m', hm'⟩
        exact Except.noConfusion hm'
      · intro pj hpj _
        cases Option.some.inj hpj
        exact ⟨rfl, rfl, rfl, rfl, rfl, rfl⟩

/-- A marshalable concrete payload input. -/
def demoInput : EventInput :=
  { aggregateId := "w-1", eventType := "wallet.created", topic := "wallet.created",
    payload := GoVal.obj [("x", GoVal.num 1)] }

/-- C7 witness: a successful save appends exactly the pending row. -/
theorem save_event_contract_witness :
    (saveEvent none [] "id-1" 3 demoInput).1 = [mkSavedRow "id-1" 3 demoInput "\x7b\"x\":1\x7d"] :=
  ((save_event_contract none [] "id-1" 3 demoInput).2.2 "\x7b\"x\":1\x7d" rfl rfl).1

/-- C8 counterexample: MarkAsFailed and IncrementAttempt never report
NotFound: on an id matching no row they return success, because their
affected-row count is not inspected; the claim that every RecordFailure form
reports NotFound is therefore false at the empty table. -/
theorem record_failure_reports_no_notfound :
    ¬ (∀ (tbl : List Row) (eid msg : String) (now : Nat), (∀ r ∈ tbl, r.id ≠ eid) →
        (markAsPublished none tbl eid now).2 = Except.error (StoreErr.notFound eid) ∧
        (markAsFailed none tbl eid msg).2 = Except.error (StoreErr.notFound eid) ∧
        (incrementAttempt none tbl eid msg).2 = Except.error (StoreErr.notFound eid)) := by
  intro h
  have h2 := (h [] "missing" "boom" 0 (fun r hr => absurd hr (List.not_mem_nil r))).2.1
  exact Except.noConfusion h2

/-- C8 (amended): MarkAsPublished reports NotFound exactly on ids matching no
row and success otherwise; MarkAsFailed and IncrementAttempt return success
regardless of whether a row matched. -/
theorem mark_ops_error_reporting (tbl : List Row) (eid msg : String) (now : Nat) :
    ((∀ r ∈ tbl, r.id ≠ eid) →
      (markAsPublished none tbl eid now).2 = Except.error (StoreErr.notFound eid)) ∧
    ((∃ r ∈ tbl, r.id = eid) → (markAsPublished none tbl eid now).2 = Except.ok ()) ∧
    (markAsFailed none tbl eid msg).2 = Except.ok () ∧
    (incrementAttempt none tbl eid msg).2 = Except.ok () := by
  refine ⟨?_, ?_, rfl, rfl⟩
  · intro h
    unfold markAsPublished
    dsimp only
    have hcond : (tbl.filter (fun r => r.id == eid)).length = 0 := by
      rw [List.length_eq_zero, List.filter_eq_nil_iff]
      intro a ha
      simp only [beq_iff_eq]
      exact h a ha
    rw [if_pos hcond]
  · rintro ⟨r, hr, hid⟩
    unfold markAsPublished
    dsimp only
    have hcond : (tbl.filter (fun r => r.id == eid)).length ≠ 0 := by
      intro h0
      rw [List.length_eq_zero, List.filter_eq_nil_iff] at h0
      exact (h0 r hr) (by simp [hid])
    rw [if_neg hcond]

/-- C8 witness: the amended contract at a one-row table whose id matches. -/
theorem mark_ops_error_reporting_witness :
    (markAsPublished none [pendingRow] "e1" 5).2 = Except.ok () :=
  (mark_ops_error_reporting [pendingRow] "e1" "m" 5).2.1
    ⟨pendingRow, List.mem_cons_self pendingRow [], rfl⟩

/-- last_error as stored by MarkAsFailed on a matching one-row table. -/
def storedLastErrorFail (reason : String) : Option String :=
  match (markAsFailed none [pendingRow] "e1" reason).1 with
  | [r] => r.lastError
  | _ => none

/-- last_error as stored by IncrementAttempt on a matching one-row table. -/
def storedLastErrorInc (reason : String) : Option String :=
  match (incrementAttempt none [pendingRow] "e1" reason).1 with
  | [r] => r.lastError
  | _ => none

theorem storedLastErrorFail_eq (reason : String) : storedLastErrorFail reason = some reason := rfl

theorem storedLastErrorInc_eq (reason : String) : storedLastErrorInc reason = some reason := rfl

/-- C9 counterexample: no truncation cap with marker suffix exists: for every
cap and marker there is a longer reason stored in full, because both failure
recorders store the reason verbatim; the SQL binds the message unchanged. -/
theorem error_truncation_refuted :
    ¬ ∃ (cap : Nat) (marker : List Char), ∀ reason : String,
        (reason.length ≤ cap → storedLastErrorFail reason = some reason) ∧
        (cap < reason.length →
          storedLastErrorFail reason = some (String.mk (reason.data.take cap ++ marker))) := by
  rintro ⟨cap, marker, h⟩
  have h2 := (h (String.mk (List.replicate (cap + marker.length + 1) 'a'))).2
    (by simp [String.length]; omega)
  rw [storedLastErrorFail_eq] at h2
  have hdata := congrArg String.data (Option.some.inj h2)
  have hl := congrArg List.length hdata
  simp only [List.length_append, List.length_take, List.length_replicate] at hl
  have hmin : min cap (cap + marker.length + 1) = cap := Nat.min_eq_left (by omega)
  rw [hmin] at hl
  omega

/-- C9 (amended): the stored last_error equals the reason verbatim for every
reason, of any length: the implementation applies no cap, truncation, or
marker suffix. -/
theorem last_error_stored_verbatim (reason : String) (tbl : List Row) (eid : String) :
    storedLastErrorFail reason = some reason ∧
    storedLastErrorInc reason = some reason ∧
    (markAsFailed none tbl eid reason).1 = applyUpd tbl eid (fun r => { r with status := statusFailed, attempts := r.attempts + 1, lastError := some reason }) ∧
    (incrementAttempt none tbl eid reason).1 = applyUpd tbl eid (fun r => { r with attempts := r.attempts + 1, lastError := some reason }) :=
  ⟨storedLastErrorFail_eq reason, storedLastErrorInc_eq reason, rfl, rfl⟩

/-- A pending row whose stored payload bytes contain redundant whitespace. -/
def c1Row : Row :=
  { id := "e1", aggregateId := "agg", eventType := "t", topic := "top",
    payload := "\x7b\"a\": 1\x7d", status := statusPending, attempts := 0, lastError := none,
    createdAt := 0, publishedAt := none }

/-- C1 counterexample: the relay decodes the stored payload into a map and
re-marshals it before publishing, so the wire value is a compact re-encoding
that differs byte for byte from the stored payload whenever the stored bytes
contain whitespace (or non-canonical key order, or non-canonical numerals). -/
theorem wire_bytes_not_db_bytes :
    (publishPendingEvents pubAllOk [c1Row] 0).2 =
      [{ topic := "top", key := "agg", value := "\x7b\"a\":1\x7d" }] ∧
    "\x7b\"a\":1\x7d" ≠ c1Row.payload :=
  ⟨rfl, by decide⟩

/-- C1 (amended): every message the relay places on the broker carries the
stored row's topic and aggregate_id, and its value is the JSON re-encoding of
the decoded stored payload - the same JSON document, not the same bytes; no
envelope is added. -/
theorem wire_value_is_reencoded_payload (pub : PubFn) (tbl : List Row) (now : Nat) (msg : Msg)
    (h : msg ∈ (publishPendingEvents pub tbl now).2) :
    ∃ r, r ∈ tbl ∧ ∃ fs, unmarshalPayloadObj r.payload = some fs ∧
      msg.topic = r.topic ∧ msg.key = r.aggregateId ∧ msg.value = jsonMarshal (Json.obj fs) := by
  rcases publishPendingEvents_snd_mem h with ⟨e, he, _, hm⟩
  rcases mem_batchOf he with ⟨r, hr, _, _, hdec⟩
  have hf := decodeRow_some hdec
  subst hm
  exact ⟨r, hr, e.payload, hf.1, hf.2.2.2.1, hf.2.2.1, rfl⟩

/-- C1 witness: the amended statement at the concrete one-row table. -/
theorem wire_value_is_reencoded_payload_witness :
    ∃ r, r ∈ [c1Row] ∧ ∃ fs, unmarshalPayloadObj r.payload = some fs ∧
      (Msg.mk "top" "agg" "\x7b\"a\":1\x7d").topic = r.topic ∧
      (Msg.mk "top" "agg" "\x7b\"a\":1\x7d").key = r.aggregateId ∧
      (Msg.mk "top" "agg" "\x7b\"a\":1\x7d").value = jsonMarshal (Json.obj fs) :=
  wire_value_is_reencoded_payload pubAllOk [c1Row] 0
    (Msg.mk "top" "agg" "\x7b\"a\":1\x7d") (by decide)

/-- The per-row invariant maintained by the relay: pending rows have at most 4
attempts (they were fetched with attempts < 5 and the exhausted branch leaves
pending), and failed rows have exactly 5. -/
def stInv (p : String × Nat) : Prop :=
  (p.1 = statusPending → p.2 ≤ 4) ∧ (p.1 = statusFailed → p.2 = 5)

theorem stInv_step {p q : String × Nat} (h : RelayRowStep p q) (hp : stInv p) : stInv q := by
  cases h with
  | publishOk a ha =>
    exact ⟨fun hc => absurd (show statusPublished = statusPending from hc) (by decide),
      fun hc => absurd (show statusPublished = statusFailed from hc) (by decide)⟩
  | publishRetry a ha =>
    exact ⟨fun _ => by omega, fun hc => absurd (show statusPending = statusFailed from hc) (by decide)⟩
  | publishExhausted =>
    exact ⟨fun hc => absurd (show statusFailed = statusPending from hc) (by decide), fun _ => rfl⟩

/-- Row ids are preserved across any sequence of relay ticks. -/
theorem reach_ids (tbl tbl' : List Row) (h : Relation.ReflTransGen drainStep tbl tbl') :
    tbl'.map Row.id = tbl.map Row.id := by
  induction h with
  | refl => rfl
  | tail hab hbc ih =>
    rcases hbc with ⟨pub, now, rfl⟩
    rw [publishPendingEvents_ids]
    exact ih

/-- C3: starting from a table of freshly enqueued rows (pending, attempts 0)
with unique ids and mutated only by relay ticks, every row that is failed has
attempts exactly 5 (= MaxAttempts): the relay only marks failed a row fetched
with attempts < 5 whose snapshot attempts is at least 4, so at attempts 4,
and the UPDATE increments attempts to 5. -/
theorem failed_rows_have_five_attempts (tbl tbl' : List Row)
    (hreach : Relation.ReflTransGen drainStep tbl tbl')
    (hnd : (tbl.map Row.id).Nodup)
    (hfresh : ∀ r ∈ tbl, r.status = statusPending ∧ r.attempts = 0) :
    ∀ r' ∈ tbl', r'.status = statusFailed → r'.attempts = 5 := by
  have key : ∀ r' ∈ tbl', stInv (rowState r') := by
    induction hreach with
    | refl =>
      intro r hr
      refine ⟨fun _ => ?_, fun hc => ?_⟩
      · show r.attempts ≤ 4
        rw [(hfresh r hr).2]
        omega
      · exact absurd ((hfresh r hr).1.symm.trans hc) (by decide)
    | @tail b c hab hbc ih =>
      rcases hbc with ⟨pub, now, rfl⟩
      intro r' hr'
      have hndb : (b.map Row.id).Nodup := by
        rw [reach_ids tbl b hab]
        exact hnd
      rcases drain_row_evol hndb hr' with ⟨r, hrb, _, hcase⟩
      rcases hcase with heq | hstep
      · rw [heq]
        exact ih r hrb
      · exact stInv_step hstep (ih r hrb)
  intro r' hr' hfail
  exact (key r' hr').2 hfail

/-- C3 witness: five consecutive all-failing ticks drive a fresh row to
(failed, 5). -/
def freshRow : Row :=
  { id := "e1", aggregateId := "w", eventType := "t", topic := "top", payload := "\x7b\x7d",
    status := statusPending, attempts := 0, lastError := none, createdAt := 0,
    publishedAt := none }

def chain0 : List Row := [freshRow]

def chain1 : List Row := (publishPendingEvents pubAllFail chain0 0).1

def chain2 : List Row := (publishPendingEvents pubAllFail chain1 0).1

def chain3 : List Row := (publishPendingEvents pubAllFail chain2 0).1

def chain4 : List Row := (publishPendingEvents pubAllFail chain3 0).1

def chain5 : List Row := (publishPendingEvents pubAllFail chain4 0).1

def failedChainRow : Row :=
  { freshRow with status := statusFailed, attempts := 5, lastError := some "kafka: connection refused" }

theorem failed_rows_have_five_attempts_witness : failedChainRow.attempts = 5 := by
  have hreach : Relation.ReflTransGen drainStep chain0 chain5 :=
    Relation.ReflTransGen.tail (Relation.ReflTransGen.tail (Relation.ReflTransGen.tail
      (Relation.ReflTransGen.tail (Relation.ReflTransGen.tail Relation.ReflTransGen.refl
        ⟨pubAllFail, 0, rfl⟩) ⟨pubAllFail, 0, rfl⟩) ⟨pubAllFail, 0, rfl⟩)
      ⟨pubAllFail, 0, rfl⟩) ⟨pubAllFail, 0, rfl⟩
  exact failed_rows_have_five_attempts chain0 chain5 hreach (by decide) (by decide)
    failedChainRow (by decide) (by decide)

/-- C4: a row whose status is terminal (published or failed) is never touched
again by any sequence of relay ticks: the fetch query only selects pending
rows, so no relay-issued UPDATE targets its id, and the exact row persists. -/
theorem terminal_rows_frozen (tbl tbl' : List Row)
    (hreach : Relation.ReflTransGen drainStep tbl tbl')
    (hnd : (tbl.map Row.id).Nodup) (r : Row) (hr : r ∈ tbl)
    (hterm : r.status = statusPublished ∨ r.status = statusFailed) :
    r ∈ tbl' := by
  induction hreach with
  | refl => exact hr
  | @tail b c hab hbc ih =>
    rcases hbc with ⟨pub, now, rfl⟩
    have hndb : (b.map Row.id).Nodup := by
      rw [reach_ids tbl b hab]
      exact hnd
    refine drain_row_untouched ih ?_
    intro e he hcontra
    rcases mem_batchOf he with ⟨row, hrowb, hpend, _, hdec⟩
    have hf := decodeRow_some hdec
    have hrowr : row = r :=
      List.inj_on_of_nodup_map hndb hrowb ih (by rw [← hf.2.1, ← hcontra])
    rw [hrowr] at hpend
    rcases hterm with ht | ht
    · rw [ht] at hpend
      exact absurd hpend (by decide)
    · rw [ht] at hpend
      exact absurd hpend (by decide)

/-- A published (terminal) row. -/
def termRow : Row :=
  { id := "t1", aggregateId := "w", eventType := "t", topic := "top", payload := "\x7b\x7d",
    status := statusPublished, attempts := 0, lastError := none, createdAt := 0,
    publishedAt := some 0 }

/-- C4 witness: a published row survives a tick of an all-accepting broker. -/
theorem terminal_rows_frozen_witness :
    termRow ∈ (publishPendingEvents pubAllOk [termRow] 0).1 :=
  terminal_rows_frozen [termRow] ((publishPendingEvents pubAllOk [termRow] 0).1)
    (Relation.ReflTransGen.single ⟨pubAllOk, 0, rfl⟩) (by decide) termRow
    (List.mem_cons_self termRow []) (Or.inl rfl)

/-- An undecodable pending row older than every decodable one. -/
def mkBad (i : Nat) : Row :=
  { id := "bad" ++ toString i, aggregateId := "w", eventType := "t", topic := "top",
    payload := "x", status := statusPending, attempts := 0, lastError := none,
    createdAt := i, publishedAt := none }

/-- A decodable pending row newer than the 100 undecodable ones. -/
def starveGood : Row :=
  { id := "good", aggregateId := "w", eventType := "t", topic := "top", payload := "\x7b\x7d",
    status := statusPending, attempts := 0, lastError := none, createdAt := 1000,
    publishedAt := none }

/-- 100 undecodable pending rows older than one decodable pending row. -/
def tblStarve : List Row := ((List.range 100).map mkBad) ++ [starveGood]

/-- C10: the LIMIT is applied before payload decoding, so undecodable rows
consume batch capacity: on a table whose 100 oldest pending rows are all
undecodable, FetchPending at limit 100 returns the empty batch although a
decodable pending row exists beyond them; an empty batch makes a tick a
no-op, so every reachable table state equals the initial one and the
decodable row is never returned in any batch. -/
theorem limit_before_decode_starvation :
    getPendingEvents none tblStarve 100 = Except.ok [] ∧
    (∃ r ∈ tblStarve, r.status = statusPending ∧ (decodeRow r).isSome = true) ∧
    (∀ tbl, batchOf tbl batchLimit = [] →
      ∀ pub now, publishPendingEvents pub tbl now = (tbl, [])) ∧
    (∀ tbl', Relation.ReflTransGen drainStep tblStarve tbl' →
      tbl' = tblStarve ∧ batchOf tbl' batchLimit = []) := by
  have hnoop : ∀ tbl, batchOf tbl batchLimit = [] →
      ∀ pub now, publishPendingEvents pub tbl now = (tbl, []) := by
    intro tbl h pub now
    unfold publishPendingEvents getPendingEvents
    dsimp only
    rw [h]
    rfl
  refine ⟨rfl, ⟨starveGood, ?_, rfl, rfl⟩, hnoop, ?_⟩
  · show starveGood ∈ tblStarve
    exact List.mem_append_right _ (List.mem_cons_self starveGood [])
  · intro tbl' hreach
    induction hreach with
    | refl => exact ⟨rfl, rfl⟩
    | @tail b c hab hbc ih =>
      rcases hbc with ⟨pub, now, rfl⟩
      rcases ih with ⟨hb, hbatch⟩
      subst hb
      have hno := hnoop tblStarve hbatch pub now
      have h1 : (publishPendingEvents pub tblStarve now).1 = tblStarve := by rw [hno]
      refine ⟨h1, ?_⟩
      rw [h1]
      exact hbatch

/-- C10 witness: one tick over the starved table is a no-op. -/
theorem limit_before_decode_starvation_witness :
    publishPendingEvents pubAllOk tblStarve 0 = (tblStarve, []) :=
  limit_before_decode_starvation.2.2.1 tblStarve rfl pubAllOk 0

end Outbox
